import Mathlib

/-!
Verification of the fwoom request-dispatch core.

The development shallowly embeds the pipeline compiler/executor
(src/pipeline/Pipeline.ts), the router (src/router/Router.ts), the plugin
scope model (src/core/plugin.ts) and the dispatch assembler
(Fwoom._registerRoute) and proves the specified properties about them.

Conventions of the embedding:
* JS objects used as string-keyed maps become association lists with
  replace-on-set semantics (`alGet` / `alSet`).
* Middleware functions become syntax trees (`MwProg`) interpreted by the
  executor; a middleware may perform an effect on the request context,
  throw, or invoke its `next` continuation.
* The executor's shared mutable `index` and the invocation log become an
  explicit `RunSt` record threaded through a fuel-based interpreter.
* Strings are handled at the character-list level so that every
  definition evaluates by `decide` / `rfl`.
-/

/-- Error values thrown by middleware / handlers (opaque payload). -/
abbrev Err := Nat

/-- Association-list read, first matching key wins (JS object / Map get). -/
def alGet {α β : Type} [DecidableEq α] : List (α × β) → α → Option β
  | [], _ => none
  | (k, v) :: rest, key => if k = key then some v else alGet rest key

/-- Association-list write: replace the existing entry in place, else
append (JS object assignment / Map set semantics). -/
def alSet {α β : Type} [DecidableEq α] : List (α × β) → α → β → List (α × β)
  | [], key, v => [(key, v)]
  | (k, w) :: rest, key, v =>
    if k = key then (key, v) :: rest else (k, w) :: alSet rest key v

/-- The request context, reduced to the fields the pipeline reads or
writes: an observable effect log, the `_manualResponse` flag, the
`headersSent` signal of the response sink, and the bodies written through
`res.end` (`none` models an empty `end()`). -/
structure Ctx where
  log : List Nat
  manualResponse : Bool
  headersSent : Bool
  responses : List (Option Nat)
deriving DecidableEq

/-- `FwoomContext.send`: drops the write when `_manualResponse` is already
set, otherwise marks the response as manually produced, ends the response
(so `headersSent` becomes true) and records the body. -/
def Ctx.send (c : Ctx) (body : Option Nat) : Ctx :=
  if c.manualResponse then c
  else { c with manualResponse := true, headersSent := true,
                responses := c.responses ++ [body] }

/-- A middleware, embedded as a program: it may end, throw, perform a
context effect and continue, or call its `next` continuation and continue
with whatever follows the `await next()`. -/
inductive MwProg : Type where
  | done : MwProg
  | throwE : Err → MwProg
  | act : (Ctx → Ctx) → MwProg → MwProg
  | callNext : MwProg → MwProg

/-- A business handler: an identity (the WeakMap cache key) together with
its behavior, which transforms the context and either throws or returns
an optional value. -/
structure HandlerB where
  id : Nat
  run : Ctx → Ctx × Except Err (Option Nat)

/-- One compiled pipeline step: either a user middleware or the terminal
handler wrapper pushed by `compilePipeline`. -/
inductive Step : Type where
  | mw : MwProg → Step
  | wrapH : HandlerB → Step

/-- A compiled pipeline: the flattened middleware list plus the terminal
handler wrapper. -/
structure CompiledPipeline where
  steps : List Step

/-- The pipeline cache: `WeakMap<Handler, CompiledPipeline>`, keyed by
handler identity alone. -/
abbrev Cache := List (Nat × CompiledPipeline)

/-- The terminal handler wrapper built by `compilePipeline`: await the
handler; if no step produced a manual response and headers were not sent,
send the returned value (or an empty response). -/
def wrapHandlerRun (hb : HandlerB) (c : Ctx) : Ctx × Option Err :=
  match hb.run c with
  | (c2, Except.error e) => (c2, some e)
  | (c2, Except.ok v) =>
    if c2.manualResponse || c2.headersSent then (c2, none)
    else (c2.send v, none)

/-- `compilePipeline(middlewares, handler)`: look the handler up in the
cache; on a miss, snapshot the middleware list, append the handler
wrapper, cache and return the result together with the updated cache. -/
def compilePipeline (cache : Cache) (mws : List MwProg) (h : HandlerB) :
    CompiledPipeline × Cache :=
  match alGet cache h.id with
  | some p => (p, cache)
  | none =>
    let steps := mws.map Step.mw ++ [Step.wrapH h]
    let compiled : CompiledPipeline := ⟨steps⟩
    (compiled, alSet cache h.id compiled)

/-- The mutable state of one `runCompiledPipeline` call: the request
context, the shared step index, and the log of step indices invoked so
far (in invocation order). -/
structure RunSt where
  ctx : Ctx
  index : Nat
  runsLog : List Nat
deriving DecidableEq

/-- What the executor is currently evaluating: the body of a middleware
program, or an invocation of the shared `next` continuation. -/
inductive Call : Type where
  | prog : MwProg → Call
  | next : Call

/-- The executor of `runCompiledPipeline`, fuel-based.  `next` consumes
the shared index: if the index is past the end it returns immediately
(the silent-ignore guard), otherwise it logs and runs the step at the
current index after bumping the index.  Errors propagate up through the
suspended `next` calls.  Returns `none` only on fuel exhaustion. -/
def exec (steps : List Step) : Nat → Call → RunSt → Option (RunSt × Option Err)
  | 0, _, _ => none
  | Nat.succ _, Call.prog MwProg.done, s => some (s, none)
  | Nat.succ _, Call.prog (MwProg.throwE e), s => some (s, some e)
  | Nat.succ fuel, Call.prog (MwProg.act f k), s =>
    exec steps fuel (Call.prog k) { s with ctx := f s.ctx }
  | Nat.succ fuel, Call.prog (MwProg.callNext k), s =>
    match exec steps fuel Call.next s with
    | none => none
    | some (s2, some e) => some (s2, some e)
    | some (s2, none) => exec steps fuel (Call.prog k) s2
  | Nat.succ fuel, Call.next, s =>
    if h : s.index < steps.length then
      match steps.get ⟨s.index, h⟩ with
      | Step.mw p =>
        exec steps fuel (Call.prog p)
          { s with index := s.index + 1, runsLog := s.runsLog ++ [s.index] }
      | Step.wrapH hb =>
        match wrapHandlerRun hb s.ctx with
        | (c2, r) =>
          some ({ s with ctx := c2, index := s.index + 1,
                         runsLog := s.runsLog ++ [s.index] }, r)
    else some (s, none)

/-- `runCompiledPipeline`: initialize the shared index to 0 and kick the
pipeline off by invoking `next()`. -/
def runPipeline (steps : List Step) (fuel : Nat) (c : Ctx) :
    Option (RunSt × Option Err) :=
  exec steps fuel Call.next ⟨c, 0, []⟩

/-! ## Router (src/router/Router.ts) -/

/-- A route registration as passed to `Router.addRoute`; the handler is
an opaque identity. -/
structure RouteDefinition where
  method : String
  path : String
  handler : Nat
deriving DecidableEq

/-- A compiled route, immutable once created. -/
structure CompiledRoute where
  method : String
  path : String
  handler : Nat
  segments : List String
  paramIndices : List Nat
  paramNames : List String
  hasParams : Bool
  wildcard : Bool
  wildcardName : Option String
  wildcardIndex : Option Nat
deriving DecidableEq

/-- A per-method table: the exact-match map for literal patterns, the
ordered parameterized list, and the ordered wildcard list. -/
structure MethodTable where
  staticMap : List (String × CompiledRoute)
  dyn : List CompiledRoute
  wildcards : List CompiledRoute
deriving DecidableEq

/-- The router: one method table per (upper-cased) HTTP method. -/
structure RouterState where
  methods : List (String × MethodTable)
deriving DecidableEq

/-- A match result: the compiled route and the extracted parameter
bindings. -/
structure MatchResult where
  route : CompiledRoute
  params : List (String × String)
deriving DecidableEq

/-- `String.toUpperCase`, at the character level. -/
def toUpperStr (s : String) : String :=
  String.mk (s.data.map Char.toUpper)

/-- `s.startsWith(c)` for a one-character prefix. -/
def startsWithChar (s : String) (c : Char) : Bool :=
  s.data.head? = some c

/-- `s.slice(1)`: drop the first character. -/
def strTail (s : String) : String :=
  String.mk s.data.tail

/-- `normalizePath`, at the character level: empty becomes `/`, a leading
slash is ensured, a trailing slash is stripped unless the path is just
the root. -/
def normalizeChars (cs : List Char) : List Char :=
  if cs = [] then ['/']
  else
    let cs2 := if cs.head? = some '/' then cs else '/' :: cs
    if cs2.length > 1 ∧ cs2.getLast? = some '/' then cs2.dropLast else cs2

/-- `normalizePath` of Router.ts. -/
def normalizePath (p : String) : String :=
  String.mk (normalizeChars p.data)

/-- The segments of a character sequence: the maximal nonempty runs of
characters between `/` separators (`path.split("/").filter(Boolean)`).
This is also the reference notion of "the path's segments" used to state
the scratch-buffer truncation property. -/
def pathSegs : List Char → List (List Char)
  | [] => []
  | c :: rest =>
    if c = '/' then pathSegs rest
    else (c :: rest.takeWhile (fun d => d != '/')) ::
      pathSegs (rest.dropWhile (fun d => d != '/'))
termination_by cs => cs.length
decreasing_by
  all_goals simp only [List.length_cons]
  · omega
  · have hd : (List.dropWhile (fun d => d != '/') rest).length ≤ rest.length := by
      induction rest with
      | nil => simp [List.dropWhile]
      | cons a t ih =>
        simp only [List.dropWhile]
        by_cases h : (a != '/') = true
        · simp only [h, List.length_cons]
          omega
        · simp only [h]
          simp
    omega

/-- The segments of a path string. -/
def pathSegsStr (s : String) : List String :=
  (pathSegs s.data).map String.mk

/-- `path.split("/").filter(Boolean)` at the character level, in
accumulator form (structurally recursive, so registration evaluates by
`decide`): `acc` holds the characters of the current run in reverse. -/
def segsAux : List Char → List Char → List (List Char)
  | [], acc => if acc.isEmpty then [] else [acc.reverse]
  | c :: rest, acc =>
    if c = '/' then
      if acc.isEmpty then segsAux rest []
      else acc.reverse :: segsAux rest []
    else segsAux rest (c :: acc)

/-- The nonempty `/`-separated runs of a character sequence. -/
def segsOfChars (cs : List Char) : List (List Char) := segsAux cs []

/-- `MAX_SEGMENTS`: the capacity of the shared segment scratch buffer. -/
def MAX_SEGMENTS : Nat := 16

/-- One write into the scratch buffer: a no-op once the buffer holds
`MAX_SEGMENTS` entries (the `if (len === MAX_SEGMENTS) break` guard),
otherwise the segment is appended at position `out.length`. -/
def pushSeg (out : List String) (acc : List Char) : List String :=
  if out.length = MAX_SEGMENTS then out else out ++ [String.mk acc.reverse]

/-- The character loop of `splitPath`: `acc` holds the characters of the
current segment in reverse (the `start..i` slice), `out` is the scratch
buffer contents written so far; the virtual `/` at the end of the input
flushes the last segment. -/
def splitPathAux : List Char → List Char → List String → List String
  | [], acc, out => if acc.isEmpty then out else pushSeg out acc
  | ch :: rest, acc, out =>
    if ch = '/' then
      if acc.isEmpty then splitPathAux rest [] out
      else splitPathAux rest [] (pushSeg out acc)
    else splitPathAux rest (ch :: acc) out

/-- `splitPath` of Router.ts: ensure a leading slash, then scan from
position 1, collecting at most `MAX_SEGMENTS` segments into the scratch
buffer; returns the buffer contents (entry `k` sits at buffer index
`k`). -/
def splitPath (path : String) : List String :=
  if path.data.head? = some '/' then splitPathAux path.data.tail [] []
  else splitPathAux path.data [] []

/-- The accumulator state of the `forEach` scan in `compileRoute`. -/
structure ScanRes where
  paramIndices : List Nat
  paramNames : List String
  wildcard : Bool
  wildcardName : Option String
  wildcardIndex : Option Nat
deriving DecidableEq

/-- Pair every element with its index starting at `k` (the `forEach`
index). -/
def withIdx {α : Type} (k : Nat) : List α → List (Nat × α)
  | [] => []
  | a :: rest => (k, a) :: withIdx (k + 1) rest

/-- One `forEach` step of the param/wildcard scan: a `:`-segment records
a parameter, else a `*`-segment (over)writes the wildcard metadata. -/
def scanStep (acc : ScanRes) (p : Nat × String) : ScanRes :=
  if startsWithChar p.2 ':' then
    { acc with paramIndices := acc.paramIndices ++ [p.1],
               paramNames := acc.paramNames ++ [strTail p.2] }
  else if startsWithChar p.2 '*' then
    { acc with wildcard := true, wildcardName := some (strTail p.2),
               wildcardIndex := some p.1 }
  else acc

/-- The full param/wildcard scan of `compileRoute`. -/
def scanSegments (segs : List String) : ScanRes :=
  (withIdx 0 segs).foldl scanStep ⟨[], [], false, none, none⟩

/-- The segment list `compileRoute` derives from a registration path:
`normalizePath(path).split("/").filter(Boolean)`. -/
def routeSegsOf (d : RouteDefinition) : List String :=
  (segsOfChars (normalizePath d.path).data).map String.mk

/-- `Router.compileRoute`: split the normalized pattern, scan for
parameters and wildcards, and reject when a wildcard was seen whose
recorded index is not the last segment. -/
def compileRoute (d : RouteDefinition) : Except String CompiledRoute :=
  let segments := routeSegsOf d
  let sc := scanSegments segments
  if sc.wildcard ∧ sc.wildcardIndex ≠ some (segments.length - 1) then
    Except.error ("Wildcard only allowed at end of path: " ++ d.path)
  else
    Except.ok
      { method := d.method, path := d.path, handler := d.handler,
        segments := segments, paramIndices := sc.paramIndices,
        paramNames := sc.paramNames,
        hasParams := sc.paramIndices.length > 0, wildcard := sc.wildcard,
        wildcardName := sc.wildcardName, wildcardIndex := sc.wildcardIndex }

/-- The empty per-method table. -/
def emptyTable : MethodTable := ⟨[], [], []⟩

/-- `Router.ensureMethodTable`: return the method's table, creating and
installing an empty one first when missing. -/
def ensureMethodTable (st : RouterState) (m : String) :
    RouterState × MethodTable :=
  match alGet st.methods m with
  | some t => (st, t)
  | none => (⟨alSet st.methods m emptyTable⟩, emptyTable)

/-- `Router.addRoute`: compile the pattern and insert the compiled route
into the wildcard list, the exact map (keyed by the raw registration
path), or the parameterized list.  The compile error, if any, is
returned alongside the state reached when it was thrown. -/
def addRoute (st : RouterState) (d : RouteDefinition) :
    RouterState × Option String :=
  let method := toUpperStr d.method
  let part := ensureMethodTable st method
  match compileRoute d with
  | Except.error e => (part.1, some e)
  | Except.ok c =>
    let table := part.2
    let table2 :=
      if c.wildcard then { table with wildcards := table.wildcards ++ [c] }
      else if c.hasParams = false then
        { table with staticMap := alSet table.staticMap d.path c }
      else { table with dyn := table.dyn ++ [c] }
    (⟨alSet part.1.methods method table2⟩, none)

/-- Build the parameter bindings of a dynamic match: positionally read
each parameter segment and bind it under its recorded name. -/
def buildParams (r : CompiledRoute) (segs : List String) :
    List (String × String) :=
  (r.paramIndices.zip r.paramNames).foldl
    (fun acc p => alSet acc p.2 (segs.getD p.1 "")) []

/-- Boolean membership in a list of indices (`paramIndices.includes`). -/
def natElem (n : Nat) : List Nat → Bool
  | [] => false
  | m :: rest => if m = n then true else natElem n rest

/-- The literal-segment comparison loop of `matchDynamic`, checking
positions `0..n-1`: parameter positions are skipped, all other positions
must match literally. -/
def dynChk (r : CompiledRoute) (segs : List String) : Nat → Bool
  | 0 => true
  | Nat.succ i =>
    dynChk r segs i &&
      (natElem i r.paramIndices || segs.getD i "" == r.segments.getD i "")

/-- `matchDynamic`: first registered route whose segment count matches
and whose literal segments all match positionally. -/
def matchDynamic : List CompiledRoute → List String → Option MatchResult
  | [], _ => none
  | r :: rest, segs =>
    if r.segments.length ≠ segs.length then matchDynamic rest segs
    else if dynChk r segs segs.length then some ⟨r, buildParams r segs⟩
    else matchDynamic rest segs

/-- The literal prefix comparison loop of `matchWildcard`, checking
positions `0..n-1`. -/
def wcChk (r : CompiledRoute) (segs : List String) : Nat → Bool
  | 0 => true
  | Nat.succ i => wcChk r segs i && (segs.getD i "" == r.segments.getD i "")

/-- Join path segments with `/` (`Array.prototype.join("/")`). -/
def joinSlash : List String → String
  | [] => ""
  | [s] => s
  | s :: rest => s ++ "/" ++ joinSlash rest

/-- `matchWildcard`: first registered wildcard route whose non-wildcard
prefix length fits and matches literally; the remaining segments are
rejoined with `/` and bound to the wildcard's name. -/
def matchWildcard : List CompiledRoute → List String → Option MatchResult
  | [], _ => none
  | r :: rest, segs =>
    let baseLen := r.segments.length - 1
    if segs.length < baseLen then matchWildcard rest segs
    else if wcChk r segs baseLen then
      some ⟨r, [(r.wildcardName.getD "", joinSlash (segs.drop baseLen))]⟩
    else matchWildcard rest segs

/-- `Router.match`: static lookup on the raw request path, then the
parameterized list over the split segments, then the wildcard list. -/
def routerMatch (st : RouterState) (method path : String) :
    Option MatchResult :=
  match alGet st.methods (toUpperStr method) with
  | none => none
  | some table =>
    match alGet table.staticMap path with
    | some r => some ⟨r, []⟩
    | none =>
      let segs := splitPath path
      match matchDynamic table.dyn segs with
      | some res => some res
      | none => matchWildcard table.wildcards segs

/-- All compiled routes stored in any bucket of any method table, used to
state that a rejected registration inserts nothing. -/
def allRoutes (st : RouterState) : List CompiledRoute :=
  (st.methods.map (fun mt =>
    mt.2.staticMap.map (fun e => e.2) ++ mt.2.dyn ++ mt.2.wildcards)).flatten

/-! ## Scope nodes, dispatch assembler (core/plugin.ts, Fwoom._registerRoute) -/

/-- An error handler: receives the thrown error and the context, returns
the updated context and, when it itself throws, the escaping error. -/
abbrev EH := Err → Ctx → Ctx × Option Err

/-- A plugin scope node (`PluginContext`): locally registered middleware,
the heap id of its decorations object, an optional locally set error
handler, and its parent (absent for a node created at the application
root). -/
inductive PluginCtx : Type where
  | root : List MwProg → Nat → Option EH → PluginCtx
  | child : List MwProg → Nat → Option EH → PluginCtx → PluginCtx

/-- The middleware registered at this scope. -/
def PluginCtx.middlewares : PluginCtx → List MwProg
  | .root m _ _ => m
  | .child m _ _ _ => m

/-- The heap id of this scope's decorations object. -/
def PluginCtx.decorId : PluginCtx → Nat
  | .root _ d _ => d
  | .child _ d _ _ => d

/-- The error handler explicitly set at this scope, if any. -/
def PluginCtx.errorHandler : PluginCtx → Option EH
  | .root _ _ e => e
  | .child _ _ e _ => e

/-- The parent scope reference. -/
def PluginCtx.parent : PluginCtx → Option PluginCtx
  | .root _ _ _ => none
  | .child _ _ _ p => some p

/-- The `while (cur) { push; cur = cur.parent }` walk of
`_registerRoute`: the scope chain from the owning scope up to its
top-most ancestor (leaf first). -/
def chainUp : PluginCtx → List PluginCtx
  | .root m d e => [.root m d e]
  | .child m d e p => .child m d e p :: chainUp p

/-- The walk starting from an optional owning scope (a route registered
directly on the app has none). -/
def walkUp : Option PluginCtx → List PluginCtx
  | none => []
  | some c => chainUp c

/-- The global application state a route registration reads: the heap id
of the app-level dependency object, the `app.use` middleware, the
unprefixed (global) plugins, and the application-wide error handler. -/
structure AppState where
  diId : Nat
  globalMiddlewares : List MwProg
  globalPlugins : List PluginCtx
  errorHandler : EH

/-- `pluginChain` of `_registerRoute`: the ancestor walk reversed into
root-to-leaf order. -/
def buildPluginChain (pc : Option PluginCtx) : List PluginCtx :=
  (walkUp pc).reverse

/-- The effective middleware stack of `_registerRoute`: global `app.use`
middleware, then every global plugin's middleware, then the plugin
chain's middleware in root-to-leaf order (all via `push` loops). -/
def buildRouteMws (app : AppState) (pc : Option PluginCtx) : List MwProg :=
  let mws := [] ++ app.globalMiddlewares
  let mws2 := app.globalPlugins.foldl (fun acc gp => acc ++ gp.middlewares) mws
  (buildPluginChain pc).foldl (fun acc p => acc ++ p.middlewares) mws2

/-- The backward index loop of `_registerRoute` over the root-to-leaf
chain: the handler of the highest-indexed scope that set one. -/
def lastSetEH : List PluginCtx → Option EH
  | [] => none
  | p :: rest =>
    match lastSetEH rest with
    | some e => some e
    | none => p.errorHandler

/-- The route error handler resolution of `_registerRoute`: the backward
scan over the root-to-leaf chain, falling back to the application-wide
handler. -/
def resolveEH (app : AppState) (pc : Option PluginCtx) : EH :=
  match lastSetEH (buildPluginChain pc) with
  | some e => e
  | none => app.errorHandler

/-- The specified resolution, stated the way the spec words it: scan the
scope chain from leaf to root for the first explicitly set handler; fall
back to the application-wide handler. -/
def specResolveEH (app : AppState) (pc : Option PluginCtx) : EH :=
  match (walkUp pc).findSome? PluginCtx.errorHandler with
  | some e => e
  | none => app.errorHandler

/-- The `try`/`catch` structure of the installed route wrapper: run the
compiled pipeline; on failure invoke the route's error handler; when that
handler itself fails, invoke the application-wide handler (whose own
outcome escapes the wrapper). -/
def routeWrapperRun (defaultEH routeEH : EH) (steps : List Step)
    (fuel : Nat) (c : Ctx) : Option (Ctx × Option Err) :=
  match runPipeline steps fuel c with
  | none => none
  | some (s, none) => some (s.ctx, none)
  | some (s, some e) =>
    match routeEH e s.ctx with
    | (c2, none) => some (c2, none)
    | (c2, some e2) => some (defaultEH e2 c2)

/-- The wrapper `_registerRoute` installs for a route owned by `pc`. -/
def registerWrapper (app : AppState) (pc : Option PluginCtx)
    (steps : List Step) (fuel : Nat) (c : Ctx) : Option (Ctx × Option Err) :=
  routeWrapperRun app.errorHandler (resolveEH app pc) steps fuel c

/-! ## Heap model for dependency-injection objects (C8) -/

/-- A JS object: an optional prototype reference and its own
properties. -/
structure HObj where
  proto : Option Nat
  props : List (String × Nat)
deriving DecidableEq

/-- The object heap; an object's id is its index. -/
structure Heap where
  objs : List HObj
deriving DecidableEq

/-- Read an object (a dummy empty object for a dangling id). -/
def Heap.getO (h : Heap) (i : Nat) : HObj :=
  h.objs.getD i ⟨none, []⟩

/-- Overwrite an object in place. -/
def Heap.setO (h : Heap) (i : Nat) (o : HObj) : Heap :=
  ⟨h.objs.set i o⟩

/-- Allocate a fresh object, returning its id. -/
def Heap.alloc (h : Heap) (o : HObj) : Heap × Nat :=
  (⟨h.objs ++ [o]⟩, h.objs.length)

/-- `Object.assign(target, source)` on own properties: write every source
entry, in order, into the target property list. -/
def assignPairs (tgt src : List (String × Nat)) : List (String × Nat) :=
  src.foldl (fun t p => alSet t p.1 p.2) tgt

/-- `Object.assign(heap[vid], heap[srcId])`, mutating only `vid`. -/
def Heap.assignFrom (h : Heap) (vid srcId : Nat) : Heap :=
  let tgt := h.getO vid
  h.setO vid { tgt with props := assignPairs tgt.props (h.getO srcId).props }

/-- The dependency-view construction of `_registerRoute`:
`Object.create(this.di)`, then `Object.assign` from every global
plugin's decorations, then from every chain scope's decorations in
root-to-leaf order.  Returns the heap and the view's id. -/
def buildScopedDI (h : Heap) (app : AppState) (pc : Option PluginCtx) :
    Heap × Nat :=
  let a := h.alloc ⟨some app.diId, []⟩
  let h2 := app.globalPlugins.foldl
    (fun hh gp => hh.assignFrom a.2 gp.decorId) a.1
  let h3 := (buildPluginChain pc).foldl
    (fun hh p => hh.assignFrom a.2 p.decorId) h2
  (h3, a.2)

/-- JS property lookup through the prototype chain (fuel-bounded). -/
def lookupIn (h : Heap) : Nat → Nat → String → Option Nat
  | 0, _, _ => none
  | Nat.succ fuel, oid, name =>
    match alGet (h.getO oid).props name with
    | some v => some v
    | none =>
      match (h.getO oid).proto with
      | some p => lookupIn h fuel p name
      | none => none

/-- The last-written value for a key in a property list (JS object write
semantics: the latest write wins). -/
def lastGet : List (String × Nat) → String → Option Nat
  | [], _ => none
  | (k, v) :: rest, key =>
    match lastGet rest key with
    | some w => some w
    | none => if k = key then some v else none

/-- The specified per-route dependency resolution: search the scopes from
leaf to root (the owning chain first, then the global plugins) for an own
binding of the name, falling back to the application-root dependency
map. -/
def specDIResolve (h : Heap) (app : AppState) (pc : Option PluginCtx)
    (name : String) : Option Nat :=
  let scopes := (app.globalPlugins ++ buildPluginChain pc).map PluginCtx.decorId
  match scopes.reverse.findSome? (fun sid => lastGet (h.getO sid).props name) with
  | some v => some v
  | none => alGet (h.getO app.diId).props name

/-! ## Spec-side wildcard-placement predicates (C6) -/

/-- A wildcard segment as `compileRoute` classifies one: starts with `*`
and not with `:` (the `:` test comes first in the scan). -/
def wildSeg (s : String) : Bool :=
  !(startsWithChar s ':') && startsWithChar s '*'

/-- Some segment of the pattern is a wildcard segment. -/
def hasWildSeg (segs : List String) : Bool :=
  segs.any wildSeg

/-- The final segment of the pattern is a wildcard segment. -/
def lastIsWild (segs : List String) : Bool :=
  (segs.getLast?.map wildSeg).getD false

/-- The position of the last wildcard segment, if any. -/
def lastWildPos : List String → Option Nat
  | [] => none
  | s :: rest =>
    match lastWildPos rest with
    | some i => some (i + 1)
    | none => if wildSeg s then some 0 else none

/-! ## Concrete instances used by the witnesses and counterexamples -/

/-- A handler returning `42`, cached under identity `7`. -/
def hdl0 : HandlerB := ⟨7, fun c => (c, Except.ok (some 42))⟩

/-- A middleware that tags the log and short-circuits (never calls
`next`). -/
def mwLog : MwProg :=
  MwProg.act (fun c => { c with log := c.log ++ [1] }) MwProg.done

/-- A fresh request context. -/
def ctx0 : Ctx := ⟨[], false, false, []⟩

/-- The cache state after compiling `([mwLog], hdl0)`. -/
def cacheAfterFirst : Cache := (compilePipeline [] [mwLog] hdl0).2

/-- A pipeline whose only middleware calls `next` twice. -/
def doubleNextSteps : List Step :=
  [Step.mw (MwProg.callNext (MwProg.callNext MwProg.done)), Step.wrapH hdl0]

/-- The outcome of running `doubleNextSteps`. -/
def c2Out : RunSt × Option Err :=
  (⟨⟨[], true, true, [some 42]⟩, 2, [0, 1]⟩, none)

/-- The empty router. -/
def emptyRouter : RouterState := ⟨[]⟩

/-- A literal route registration. -/
def rdefA : RouteDefinition := ⟨"GET", "/a", 0⟩

/-- The router holding just `GET /a`. -/
def stA : RouterState := (addRoute emptyRouter rdefA).1

/-- The `GET` table of `stA`. -/
def tableA : MethodTable := (alGet stA.methods "GET").getD emptyTable

/-- The compiled form of `GET /a`. -/
def routeA : CompiledRoute :=
  ⟨"GET", "/a", 0, ["a"], [], [], false, false, none, none⟩

/-- A pattern with two wildcard segments, the last one final. -/
def rdefWW : RouteDefinition := ⟨"GET", "/*a/*b", 0⟩

/-- A pattern whose wildcard is not the final segment. -/
def rdefBadWild : RouteDefinition := ⟨"GET", "/x/*w/y", 0⟩

/-- The compiled form of `GET /assets/*rest`. -/
def assetsRoute : CompiledRoute :=
  ⟨"GET", "/assets/*rest", 0, ["assets", "*rest"], [], [], false, true,
    some "rest", some 1⟩

/-- Duplicate literal registrations. -/
def dupDef1 : RouteDefinition := ⟨"GET", "/dup", 1⟩

/-- Duplicate literal registrations, second handler. -/
def dupDef2 : RouteDefinition := ⟨"GET", "/dup", 2⟩

/-- The compiled form of the first duplicate registration. -/
def dupR1 : CompiledRoute :=
  ⟨"GET", "/dup", 1, ["dup"], [], [], false, false, none, none⟩

/-- The compiled form of the second duplicate registration. -/
def dupR2 : CompiledRoute :=
  ⟨"GET", "/dup", 2, ["dup"], [], [], false, false, none, none⟩

/-- A parameterized route registration. -/
def userDef : RouteDefinition := ⟨"GET", "/u/:id", 3⟩

/-- The compiled form of `GET /u/:id`. -/
def userRoute : CompiledRoute :=
  ⟨"GET", "/u/:id", 3, ["u", ":id"], [1], ["id"], true, false, none, none⟩

/-- An error handler that rethrows a transformed error. -/
def ehBump : EH := fun e c => (c, some (e + 2))

/-- An error handler that records the error and recovers. -/
def ehLog : EH := fun e c => ({ c with log := c.log ++ [e] }, none)

/-- A root scope that sets an error handler. -/
def pcRootEH : PluginCtx := PluginCtx.root [] 1 (some ehBump)

/-- A leaf scope that sets none. -/
def pcLeafEH : PluginCtx := PluginCtx.child [] 2 none pcRootEH

/-- An app whose application-wide handler is `ehLog`. -/
def appEH : AppState := ⟨0, [], [], ehLog⟩

/-- A pipeline whose first middleware throws `5`. -/
def throwSteps : List Step := [Step.mw (MwProg.throwE 5), Step.wrapH hdl0]

/-- The outcome of running `throwSteps`. -/
def c4RunOut : RunSt × Option Err := (⟨⟨[], false, false, []⟩, 1, [0]⟩, some 5)

/-- Middleware registered at an ancestor scope. -/
def mwRootTag : MwProg :=
  MwProg.act (fun c => { c with log := c.log ++ [100] }) MwProg.done

/-- Middleware registered at a descendant scope. -/
def mwLeafTag : MwProg :=
  MwProg.act (fun c => { c with log := c.log ++ [200] }) MwProg.done

/-- Middleware registered via `app.use`. -/
def mwGlobalTag : MwProg :=
  MwProg.act (fun c => { c with log := c.log ++ [50] }) MwProg.done

/-- An ancestor scope contributing `mwRootTag`. -/
def pcRootMw : PluginCtx := PluginCtx.root [mwRootTag] 1 none

/-- A descendant scope contributing `mwLeafTag`. -/
def pcLeafMw : PluginCtx := PluginCtx.child [mwLeafTag] 2 none pcRootMw

/-- An app with one global middleware. -/
def appMw : AppState := ⟨0, [mwGlobalTag], [], ehLog⟩

/-- A heap: object 0 is the app dependency map, objects 1 and 2 the
decoration maps of an ancestor and a descendant scope, both binding
`shared`. -/
def heap8 : Heap :=
  ⟨[⟨none, [("k", 1), ("shared", 10)]⟩,
    ⟨none, [("shared", 20)]⟩,
    ⟨none, [("shared", 30), ("own", 40)]⟩]⟩

/-- The app whose dependency map is heap object 0. -/
def app8 : AppState := ⟨0, [], [], ehLog⟩

/-- The ancestor scope decorating via heap object 1. -/
def pcRoot8 : PluginCtx := PluginCtx.root [] 1 none

/-- The descendant scope decorating via heap object 2. -/
def pcLeaf8 : PluginCtx := PluginCtx.child [] 2 none pcRoot8

/-- The invariant of the executor state: the invocation log is strictly
increasing, and every logged index is below the shared index. -/
def RunInv (s : RunSt) : Prop :=
  s.runsLog.Pairwise (· < ·) ∧ ∀ x ∈ s.runsLog, x < s.index

/-! ## Helper lemmas -/

theorem alGet_alSet_self {α β : Type} [DecidableEq α]
    (l : List (α × β)) (k : α) (v : β) : alGet (alSet l k v) k = some v := by
  induction l with
  | nil => simp [alGet, alSet]
  | cons p rest ih =>
    obtain ⟨a, b⟩ := p
    by_cases h : a = k
    · simp [alSet, h, alGet]
    · simp [alSet, h, alGet, ih]

theorem alGet_alSet_ne {α β : Type} [DecidableEq α]
    (l : List (α × β)) (k k2 : α) (v : β) (h : k2 ≠ k) :
    alGet (alSet l k v) k2 = alGet l k2 := by
  induction l with
  | nil => simp [alGet, alSet, h.symm]
  | cons p rest ih =>
    obtain ⟨a, b⟩ := p
    by_cases ha : a = k
    · subst ha
      simp [alSet, alGet, h.symm]
    · simp [alSet, ha, alGet, ih]

theorem alSet_of_missing {α β : Type} [DecidableEq α]
    (l : List (α × β)) (k : α) (v : β) (h : alGet l k = none) :
    alSet l k v = l ++ [(k, v)] := by
  induction l with
  | nil => simp [alSet]
  | cons p rest ih =>
    obtain ⟨a, b⟩ := p
    by_cases ha : a = k
    · simp [alGet, ha] at h
    · simp [alGet, ha] at h
      simp [alSet, ha, ih h]

theorem getD_append_lt {α : Type} (l m : List α) (i : Nat) (d : α)
    (h : i < l.length) : (l ++ m).getD i d = l.getD i d := by
  simp [List.getD, List.getElem?_append, h]

theorem getD_append_len {α : Type} (l : List α) (o d : α) :
    (l ++ [o]).getD l.length d = o := by
  simp [List.getD, List.getElem?_append]

theorem getD_set_self {α : Type} (l : List α) (i : Nat) (o d : α)
    (h : i < l.length) : (l.set i o).getD i d = o := by
  simp [List.getD, List.getElem?_set_self, h]

theorem getD_set_ne {α : Type} (l : List α) (i j : Nat) (o d : α)
    (h : j ≠ i) : (l.set i o).getD j d = l.getD j d := by
  simp [List.getD, List.getElem?_set_ne (fun hh => h hh.symm)]

theorem foldl_append_map {α β : Type} (f : α → List β) (l : List α)
    (init : List β) :
    l.foldl (fun acc x => acc ++ f x) init = init ++ (l.map f).flatten := by
  induction l generalizing init with
  | nil => simp
  | cons a rest ih => simp [List.foldl, ih]

/-! ## C1: the pipeline cache is keyed by handler identity alone -/

/-- Claim C1 (code bug demonstration).  The claim says the pipeline
returned by `compilePipeline(middlewares, handler)` is always
behaviorally identical to a freshly compiled pipeline for the same
arguments.  The cache is keyed by the handler alone: after compiling
`([mwLog], hdl0)`, compiling `([], hdl0)` returns the cached pipeline of
the first call, and running it produces no response (the short-circuit
middleware runs and the handler never does), while the fresh pipeline
for `([], hdl0)` sends the handler's value `42`. -/
theorem pipelineCache_not_transparent :
    (compilePipeline cacheAfterFirst [] hdl0).1
      = (compilePipeline [] [mwLog] hdl0).1 ∧
    (runPipeline (compilePipeline cacheAfterFirst [] hdl0).1.steps 12 ctx0).map
      (fun x => x.1.ctx.responses) = some [] ∧
    (runPipeline (compilePipeline [] [] hdl0).1.steps 12 ctx0).map
      (fun x => x.1.ctx.responses) = some [some 42] :=
  ⟨rfl, rfl, rfl⟩

/-! ## C2: double invocation of next -/

theorem runInv_extend (s : RunSt) (h : RunInv s) :
    RunInv { s with index := s.index + 1,
                    runsLog := s.runsLog ++ [s.index] } := by
  obtain ⟨hp, hb⟩ := h
  constructor
  · rw [List.pairwise_append]
    refine ⟨hp, List.pairwise_singleton _ _, ?_⟩
    intro x hx y hy
    simp only [List.mem_singleton] at hy
    subst hy
    exact hb x hx
  · intro x hx
    simp only [List.mem_append, List.mem_singleton] at hx
    rcases hx with hx | hx
    · exact Nat.lt_succ_of_lt (hb x hx)
    · subst hx
      exact Nat.lt_succ_self _

theorem exec_inv (steps : List Step) :
    ∀ (fuel : Nat) (call : Call) (s : RunSt) (res : RunSt × Option Err),
      RunInv s → exec steps fuel call s = some res → RunInv res.1 := by
  intro fuel
  induction fuel with
  | zero =>
    intro call s res _ h
    simp [exec] at h
  | succ f ih =>
    intro call s res hs h
    cases call with
    | prog p =>
      cases p with
      | done =>
        simp only [exec, Option.some.injEq] at h
        rw [← h]
        exact hs
      | throwE e =>
        simp only [exec, Option.some.injEq] at h
        rw [← h]
        exact hs
      | act g k =>
        simp only [exec] at h
        exact ih (Call.prog k) { s with ctx := g s.ctx } res ⟨hs.1, hs.2⟩ h
      | callNext k =>
        cases hex : exec steps f Call.next s with
        | none =>
          simp only [exec, hex] at h
          exact Option.noConfusion h
        | some pr =>
          obtain ⟨s2, r⟩ := pr
          cases r with
          | some e =>
            simp only [exec, hex, Option.some.injEq] at h
            rw [← h]
            exact ih Call.next s (s2, some e) hs hex
          | none =>
            simp only [exec, hex] at h
            exact ih (Call.prog k) s2 res
              (ih Call.next s (s2, none) hs hex) h
    | next =>
      by_cases hidx : s.index < steps.length
      · have hs2 : RunInv { s with index := s.index + 1,
                                   runsLog := s.runsLog ++ [s.index] } :=
          runInv_extend s hs
        cases hstep : steps.get ⟨s.index, hidx⟩ with
        | mw p =>
          simp only [exec, dif_pos hidx, hstep] at h
          exact ih (Call.prog p)
            { s with index := s.index + 1,
                     runsLog := s.runsLog ++ [s.index] } res hs2 h
        | wrapH hb =>
          simp only [exec, dif_pos hidx, hstep, Option.some.injEq] at h
          rw [← h]
          exact ⟨hs2.1, hs2.2⟩
      · simp only [exec, dif_neg hidx, Option.some.injEq] at h
        rw [← h]
        exact hs

/-- Claim C2 (amended).  A middleware calling `next` more than once in
the same step invocation is not reported as an error; instead the
executor's shared index guard makes the extra call harmless: whenever a
pipeline run completes, the log of step invocations has no duplicates,
i.e. every step in the compiled sequence executed at most once. -/
theorem pipeline_steps_run_at_most_once (steps : List Step) (fuel : Nat)
    (c : Ctx) (res : RunSt × Option Err)
    (h : runPipeline steps fuel c = some res) : res.1.runsLog.Nodup := by
  have hinv : RunInv res.1 :=
    exec_inv steps fuel Call.next ⟨c, 0, []⟩ res
      ⟨List.Pairwise.nil, by simp⟩ h
  exact hinv.1.imp (fun hlt => Nat.ne_of_lt hlt)

/-- Witness for C2: the concrete double-`next` pipeline completes with
log `[0, 1]`, which has no duplicates. -/
theorem pipeline_steps_run_at_most_once_witness :
    runPipeline doubleNextSteps 12 ctx0 = some c2Out ∧
      c2Out.1.runsLog.Nodup :=
  ⟨rfl, pipeline_steps_run_at_most_once doubleNextSteps 12 ctx0 c2Out rfl⟩

/-- Counterexample for C2 as stated: the middleware of
`doubleNextSteps` calls `next` twice, yet the run completes with no
error of any kind reported — the claimed usage-error detection does not
exist in `runCompiledPipeline`. -/
theorem doubleNext_no_usage_error :
    (runPipeline doubleNextSteps 12 ctx0).map (fun x => x.2) = some none :=
  rfl

/-! ## C3: the exact-map lookup and request-path normalization -/

/-- Counterexample for C3 as stated: `Router.match` does not normalize
the request path before the exact-map lookup.  With `GET /a` registered,
the normalized form of the request path `/a/` is `/a` and is present in
the exact map, yet `match("GET", "/a/")` returns a miss: the lookup used
the raw path. -/
theorem match_ignores_normalization :
    normalizePath "/a/" = "/a" ∧
    (alGet tableA.staticMap (normalizePath "/a/")).isSome = true ∧
    alGet stA.methods "GET" = some tableA ∧
    routerMatch stA "GET" "/a/" = none := by
  refine ⟨by decide, by decide, by decide, by decide⟩

/-- Claim C3 (amended).  `Router.match` performs no normalization of the
request path: the exact-map lookup uses the raw request path against the
raw registration path.  Whenever the exact map of the method's table
contains the raw path, the result is that route with empty parameter
bindings, and the parameterized and wildcard lists are never consulted
(the result does not depend on them). -/
theorem static_hit_wins (st : RouterState) (method path : String)
    (t : MethodTable) (r : CompiledRoute)
    (h1 : alGet st.methods (toUpperStr method) = some t)
    (h2 : alGet t.staticMap path = some r) :
    routerMatch st method path = some ⟨r, []⟩ := by
  simp only [routerMatch, h1, h2]

/-- Witness for C3's amended claim at the concrete router `stA`. -/
theorem static_hit_wins_witness :
    alGet stA.methods (toUpperStr "GET") = some tableA ∧
    alGet tableA.staticMap "/a" = some routeA ∧
    routerMatch stA "GET" "/a" = some ⟨routeA, []⟩ :=
  ⟨by decide, by decide,
    static_hit_wins stA "GET" "/a" tableA routeA (by decide) (by decide)⟩

/-! ## C7: wildcard matching -/

theorem wcChk_iff (r : CompiledRoute) (segs : List String) (n : Nat) :
    wcChk r segs n = true ↔
      ∀ i, i < n → segs.getD i "" = r.segments.getD i "" := by
  induction n with
  | zero => simp [wcChk]
  | succ m ih =>
    simp only [wcChk, Bool.and_eq_true, beq_iff_eq, ih]
    constructor
    · rintro ⟨hall, hm⟩ i hi
      rcases Nat.lt_succ_iff_lt_or_eq.mp hi with hlt | heq
      · exact hall i hlt
      · subst heq
        exact hm
    · intro hall
      exact ⟨fun i hi => hall i (Nat.lt_succ_of_lt hi),
             hall m (Nat.lt_succ_self m)⟩

/-- Claim C7.  A registered wildcard route matches exactly when the
request has at least as many segments as the route's non-wildcard prefix
and each prefix segment equals the corresponding request segment
literally; on a match the remaining trailing segments are rejoined with
`/` and bound under the wildcard's name. -/
theorem wildcard_match_characterization (r : CompiledRoute) (name : String)
    (segs : List String) (hn : r.wildcardName = some name) :
    ((matchWildcard [r] segs).isSome ↔
      (r.segments.length - 1 ≤ segs.length ∧
        ∀ i, i < r.segments.length - 1 →
          segs.getD i "" = r.segments.getD i "")) ∧
    ((matchWildcard [r] segs).isSome →
      matchWildcard [r] segs =
        some ⟨r, [(name, joinSlash (segs.drop (r.segments.length - 1)))]⟩) := by
  by_cases h1 : segs.length < r.segments.length - 1
  · have hnone : matchWildcard [r] segs = none := by
      simp [matchWildcard, h1]
    rw [hnone]
    constructor
    · simp
      intro hle
      omega
    · simp
  · by_cases h2 : wcChk r segs (r.segments.length - 1) = true
    · have hsome : matchWildcard [r] segs =
          some ⟨r, [(name, joinSlash (segs.drop (r.segments.length - 1)))]⟩ := by
        simp [matchWildcard, h1, h2, hn]
      rw [hsome]
      constructor
      · simp only [Option.isSome_some, true_iff]
        exact ⟨by omega, (wcChk_iff r segs _).mp h2⟩
      · intro _
        rfl
    · have hnone : matchWildcard [r] segs = none := by
        simp [matchWildcard, h1, h2]
      rw [hnone]
      constructor
      · simp only [Option.isSome_none, Bool.false_eq_true, false_iff]
        intro hc
        exact h2 ((wcChk_iff r segs _).mpr hc.2)
      · simp

/-- Witness for C7: `GET /assets/*rest` against `/assets/css/app.css`
binds `rest = "css/app.css"`. -/
theorem wildcard_match_characterization_witness :
    assetsRoute.wildcardName = some "rest" ∧
    compileRoute ⟨"GET", "/assets/*rest", 0⟩ = Except.ok assetsRoute ∧
    splitPath "/assets/css/app.css" = ["assets", "css", "app.css"] ∧
    matchWildcard [assetsRoute] (splitPath "/assets/css/app.css") =
      some ⟨assetsRoute, [("rest", "css/app.css")]⟩ := by
  refine ⟨rfl, rfl, by decide, ?_⟩
  have hsome : (matchWildcard [assetsRoute]
      (splitPath "/assets/css/app.css")).isSome := by decide
  exact ((wildcard_match_characterization assetsRoute "rest"
    (splitPath "/assets/css/app.css") rfl).2 hsome).trans (by decide)

/-! ## C10: duplicate literal routes replace, dynamic first wins -/

theorem ensureMethodTable_found (st : RouterState) (m : String)
    (t : MethodTable) (h : alGet st.methods m = some t) :
    ensureMethodTable st m = (st, t) := by
  simp [ensureMethodTable, h]

theorem addRoute_static (st : RouterState) (d : RouteDefinition)
    (c : CompiledRoute) (hc : compileRoute d = Except.ok c)
    (hw : c.wildcard = false) (hp : c.hasParams = false) :
    (addRoute st d).1 =
      ⟨alSet (ensureMethodTable st (toUpperStr d.method)).1.methods
        (toUpperStr d.method)
        { (ensureMethodTable st (toUpperStr d.method)).2 with
            staticMap :=
              alSet (ensureMethodTable st (toUpperStr d.method)).2.staticMap
                d.path c }⟩ := by
  simp [addRoute, hc, hw, hp]

theorem addRoute_dyn (st : RouterState) (d : RouteDefinition)
    (c : CompiledRoute) (hc : compileRoute d = Except.ok c)
    (hw : c.wildcard = false) (hp : c.hasParams = true) :
    (addRoute st d).1 =
      ⟨alSet (ensureMethodTable st (toUpperStr d.method)).1.methods
        (toUpperStr d.method)
        { (ensureMethodTable st (toUpperStr d.method)).2 with
            dyn := (ensureMethodTable st (toUpperStr d.method)).2.dyn ++ [c] }⟩ := by
  simp [addRoute, hc, hw, hp]

/-- Claim C10.  Registering a second route with the same method and the
same literal pattern replaces the earlier route in the exact map (last
registration wins); a parameterized registration appends to the end of
the dynamic list, and at match time the first listed dynamic route that
fits wins. -/
theorem duplicate_route_precedence :
    (∀ (st : RouterState) (d1 d2 : RouteDefinition) (c1 c2 : CompiledRoute),
      compileRoute d1 = Except.ok c1 → compileRoute d2 = Except.ok c2 →
      c1.wildcard = false → c1.hasParams = false →
      c2.wildcard = false → c2.hasParams = false →
      d1.path = d2.path → toUpperStr d1.method = toUpperStr d2.method →
      ∃ t, alGet ((addRoute (addRoute st d1).1 d2).1).methods
            (toUpperStr d2.method) = some t ∧
        alGet t.staticMap d2.path = some c2) ∧
    (∀ (st : RouterState) (d : RouteDefinition) (c : CompiledRoute)
        (t : MethodTable),
      compileRoute d = Except.ok c → c.wildcard = false →
      c.hasParams = true →
      alGet st.methods (toUpperStr d.method) = some t →
      ∃ t2, alGet ((addRoute st d).1).methods (toUpperStr d.method)
          = some t2 ∧ t2.dyn = t.dyn ++ [c]) ∧
    (∀ (r : CompiledRoute) (rest : List CompiledRoute) (segs : List String),
      r.segments.length = segs.length → dynChk r segs segs.length = true →
      matchDynamic (r :: rest) segs = some ⟨r, buildParams r segs⟩) := by
  refine ⟨?_, ?_, ?_⟩
  · intro st d1 d2 c1 c2 hc1 hc2 hw1 hp1 hw2 hp2 hpath hmeth
    rw [addRoute_static st d1 c1 hc1 hw1 hp1]
    set st1 : RouterState :=
      ⟨alSet (ensureMethodTable st (toUpperStr d1.method)).1.methods
        (toUpperStr d1.method)
        { (ensureMethodTable st (toUpperStr d1.method)).2 with
            staticMap :=
              alSet (ensureMethodTable st (toUpperStr d1.method)).2.staticMap
                d1.path c1 }⟩ with hst1
    have hfound : alGet st1.methods (toUpperStr d2.method) =
        some { (ensureMethodTable st (toUpperStr d1.method)).2 with
            staticMap :=
              alSet (ensureMethodTable st (toUpperStr d1.method)).2.staticMap
                d1.path c1 } := by
      rw [hst1, ← hmeth]
      exact alGet_alSet_self _ _ _
    rw [addRoute_static st1 d2 c2 hc2 hw2 hp2,
        ensureMethodTable_found st1 (toUpperStr d2.method) _ hfound]
    refine ⟨_, alGet_alSet_self _ _ _, ?_⟩
    exact alGet_alSet_self _ _ _
  · intro st d c t hc hw hp hfound
    rw [addRoute_dyn st d c hc hw hp,
        ensureMethodTable_found st (toUpperStr d.method) t hfound]
    exact ⟨_, alGet_alSet_self _ _ _, rfl⟩
  · intro r rest segs hlen hchk
    simp [matchDynamic, hlen, hchk]

/-- Witness for C10 at concrete routes: the literal `/dup` registered
twice keeps the second compiled route; a parameterized route appends to
the dynamic list of the existing `GET` table; `GET /u/:id` wins first in
the dynamic list for `/u/42`. -/
theorem duplicate_route_precedence_witness :
    (compileRoute dupDef1 = Except.ok dupR1 ∧
     compileRoute dupDef2 = Except.ok dupR2 ∧
     ∃ t, alGet ((addRoute (addRoute emptyRouter dupDef1).1 dupDef2).1).methods
         (toUpperStr dupDef2.method) = some t ∧
       alGet t.staticMap dupDef2.path = some dupR2) ∧
    (compileRoute userDef = Except.ok userRoute ∧
     ∃ t2, alGet ((addRoute stA userDef).1).methods
         (toUpperStr userDef.method) = some t2 ∧
       t2.dyn = tableA.dyn ++ [userRoute]) ∧
    matchDynamic [userRoute] ["u", "42"] =
      some ⟨userRoute, buildParams userRoute ["u", "42"]⟩ := by
  refine ⟨⟨rfl, rfl, ?_⟩, ⟨rfl, ?_⟩, ?_⟩
  · exact duplicate_route_precedence.1 emptyRouter dupDef1 dupDef2 dupR1 dupR2
      rfl rfl (by decide) (by decide) (by decide) (by decide)
      (by decide) (by decide)
  · exact duplicate_route_precedence.2.1 stA userDef userRoute tableA
      rfl (by decide) (by decide) (by decide)
  · exact duplicate_route_precedence.2.2 userRoute [] ["u", "42"]
      (by decide) (by decide)

/-! ## C4: error-handler resolution and failure escalation -/

theorem lastSetEH_append_single (xs : List PluginCtx) (p : PluginCtx) :
    lastSetEH (xs ++ [p]) =
      match p.errorHandler with
      | some e => some e
      | none => lastSetEH xs := by
  induction xs with
  | nil =>
    cases hp : p.errorHandler <;> simp [lastSetEH, hp]
  | cons x xs ih =>
    simp only [List.cons_append, lastSetEH, List.append_eq, ih]
    cases hp : p.errorHandler <;> simp [hp]

theorem lastSetEH_reverse (l : List PluginCtx) :
    lastSetEH l.reverse = l.findSome? PluginCtx.errorHandler := by
  induction l with
  | nil => rfl
  | cons p rest ih =>
    rw [List.reverse_cons, lastSetEH_append_single, ih, List.findSome?_cons]
    cases hp : p.errorHandler <;> simp [hp]

/-- Claim C4.  The route's resolved error handler is the first explicitly
set handler scanning the scope chain leaf to root, falling back to the
application-wide handler; a pipeline failure invokes that resolved
handler, and a failure inside it escalates to the application-wide
handler. -/
theorem route_error_handler_resolution (app : AppState)
    (pc : Option PluginCtx) (steps : List Step) (fuel : Nat) (c : Ctx) :
    resolveEH app pc = specResolveEH app pc ∧
    (∀ (s : RunSt) (e : Err), runPipeline steps fuel c = some (s, some e) →
      registerWrapper app pc steps fuel c =
        (match specResolveEH app pc e s.ctx with
         | (c2, none) => some (c2, none)
         | (c2, some e2) => some (app.errorHandler e2 c2))) := by
  have hres : resolveEH app pc = specResolveEH app pc := by
    unfold resolveEH specResolveEH buildPluginChain
    rw [lastSetEH_reverse]
  refine ⟨hres, ?_⟩
  intro s e hrun
  simp only [registerWrapper, routeWrapperRun, hrun, hres]

/-- Witness for C4: a middleware throws `5`; the leaf scope sets no
handler, the root scope's `ehBump` is resolved, it rethrows `7`, and the
application-wide `ehLog` records it. -/
theorem route_error_handler_resolution_witness :
    runPipeline throwSteps 10 ctx0 = some (c4RunOut.1, some 5) ∧
    registerWrapper appEH (some pcLeafEH) throwSteps 10 ctx0 =
      (match specResolveEH appEH (some pcLeafEH) 5 c4RunOut.1.ctx with
       | (c2, none) => some (c2, none)
       | (c2, some e2) => some (appEH.errorHandler e2 c2)) :=
  ⟨rfl, (route_error_handler_resolution appEH (some pcLeafEH) throwSteps 10
    ctx0).2 c4RunOut.1 5 rfl⟩

/-! ## C5: middleware ordering across the scope chain -/

theorem chainUp_eq (c : PluginCtx) : chainUp c = c :: walkUp c.parent := by
  cases c <;> rfl

theorem chainUp_suffix (c : PluginCtx) :
    ∀ B : PluginCtx, B ∈ chainUp c → ∃ l, chainUp c = l ++ chainUp B := by
  induction c with
  | root m d e =>
    intro B h
    simp [chainUp] at h
    subst h
    exact ⟨[], rfl⟩
  | child m d e p ih =>
    intro B h
    rcases List.mem_cons.mp h with h1 | h2
    · subst h1
      exact ⟨[], rfl⟩
    · obtain ⟨l, hl⟩ := ih B h2
      refine ⟨PluginCtx.child m d e p :: l, ?_⟩
      rw [chainUp, hl]
      rfl

/-- Claim C5.  The effective middleware chain is the application's
global middleware, then the global (unprefixed) plugins' middleware,
then the scope chain's middleware in root-to-leaf order; consequently
every middleware of an ancestor scope appears before every middleware of
a descendant scope. -/
theorem middleware_root_to_leaf_order (app : AppState) (c : PluginCtx) :
    buildRouteMws app (some c) =
      app.globalMiddlewares ++
        (app.globalPlugins.map PluginCtx.middlewares).flatten ++
        ((chainUp c).reverse.map PluginCtx.middlewares).flatten ∧
    (∀ A B : PluginCtx, B ∈ chainUp c → A ∈ (chainUp B).tail →
      ∃ pre mid post, buildRouteMws app (some c) =
        pre ++ A.middlewares ++ mid ++ B.middlewares ++ post) := by
  have hstruct : buildRouteMws app (some c) =
      app.globalMiddlewares ++
        (app.globalPlugins.map PluginCtx.middlewares).flatten ++
        ((chainUp c).reverse.map PluginCtx.middlewares).flatten := by
    unfold buildRouteMws buildPluginChain walkUp
    rw [foldl_append_map, foldl_append_map]
    simp [List.append_assoc]
  refine ⟨hstruct, ?_⟩
  intro A B hB hA
  obtain ⟨l1, hl1⟩ := chainUp_suffix c B hB
  have hA2 : A ∈ walkUp B.parent := by
    rw [chainUp_eq] at hA
    simpa using hA
  obtain ⟨t1, t2, ht⟩ := List.append_of_mem hA2
  rw [chainUp_eq B, ht] at hl1
  refine ⟨app.globalMiddlewares ++
      (app.globalPlugins.map PluginCtx.middlewares).flatten ++
      (t2.reverse.map PluginCtx.middlewares).flatten,
    (t1.reverse.map PluginCtx.middlewares).flatten,
    (l1.reverse.map PluginCtx.middlewares).flatten, ?_⟩
  rw [hstruct, hl1]
  simp [List.reverse_append, List.reverse_cons, List.map_append,
    List.flatten_append, List.append_assoc]

/-- Witness for C5: the root scope's `mwRootTag` appears before the leaf
scope's `mwLeafTag` in the effective chain of a route owned by the leaf
scope. -/
theorem middleware_root_to_leaf_order_witness :
    pcLeafMw ∈ chainUp pcLeafMw ∧
    pcRootMw ∈ (chainUp pcLeafMw).tail ∧
    ∃ pre mid post, buildRouteMws appMw (some pcLeafMw) =
      pre ++ pcRootMw.middlewares ++ mid ++ pcLeafMw.middlewares ++ post :=
  ⟨List.mem_cons_self _ _, List.mem_cons_self _ _,
    (middleware_root_to_leaf_order appMw pcLeafMw).2 pcRootMw pcLeafMw
      (List.mem_cons_self _ _) (List.mem_cons_self _ _)⟩

/-! ## C6: wildcard placement at registration -/

theorem scan_fold (segs : List String) :
    ∀ (k : Nat) (acc : ScanRes),
      ((withIdx k segs).foldl scanStep acc).wildcard =
        (acc.wildcard || (lastWildPos segs).isSome) ∧
      ((withIdx k segs).foldl scanStep acc).wildcardIndex =
        (match lastWildPos segs with
         | some i => some (k + i)
         | none => acc.wildcardIndex) := by
  induction segs with
  | nil =>
    intro k acc
    simp [withIdx, lastWildPos]
  | cons s rest ih =>
    intro k acc
    have hstep : (withIdx k (s :: rest)).foldl scanStep acc =
        (withIdx (k + 1) rest).foldl scanStep (scanStep acc (k, s)) := rfl
    rw [hstep]
    obtain ⟨ihw, ihi⟩ := ih (k + 1) (scanStep acc (k, s))
    rw [ihw, ihi]
    by_cases h1 : startsWithChar s ':' = true
    · have hws : wildSeg s = false := by simp [wildSeg, h1]
      have hsw : (scanStep acc (k, s)).wildcard = acc.wildcard := by
        simp [scanStep, h1]
      have hsi : (scanStep acc (k, s)).wildcardIndex = acc.wildcardIndex := by
        simp [scanStep, h1]
      rw [hsw, hsi]
      cases hlw : lastWildPos rest with
      | none => simp [lastWildPos, hws, hlw]
      | some i =>
        refine ⟨by simp [lastWildPos, hlw], ?_⟩
        simp only [lastWildPos, hlw]
        exact congrArg some (by omega)
    · by_cases h2 : startsWithChar s '*' = true
      · have hws : wildSeg s = true := by simp [wildSeg, h1, h2]
        have hsw : (scanStep acc (k, s)).wildcard = true := by
          simp [scanStep, h1, h2]
        have hsi : (scanStep acc (k, s)).wildcardIndex = some k := by
          simp [scanStep, h1, h2]
        rw [hsw, hsi]
        cases hlw : lastWildPos rest with
        | none => simp [lastWildPos, hws, hlw]
        | some i =>
          refine ⟨by simp [lastWildPos, hlw], ?_⟩
          simp only [lastWildPos, hlw]
          exact congrArg some (by omega)
      · have hws : wildSeg s = false := by simp [wildSeg, h1, h2]
        have hsw : (scanStep acc (k, s)).wildcard = acc.wildcard := by
          simp [scanStep, h1, h2]
        have hsi : (scanStep acc (k, s)).wildcardIndex = acc.wildcardIndex := by
          simp [scanStep, h1, h2]
        rw [hsw, hsi]
        cases hlw : lastWildPos rest with
        | none => simp [lastWildPos, hws, hlw]
        | some i =>
          refine ⟨by simp [lastWildPos, hlw], ?_⟩
          simp only [lastWildPos, hlw]
          exact congrArg some (by omega)

theorem lastWildPos_isSome (segs : List String) :
    (lastWildPos segs).isSome = hasWildSeg segs := by
  induction segs with
  | nil => rfl
  | cons s rest ih =>
    simp only [hasWildSeg] at ih ⊢
    simp only [lastWildPos, List.any_cons]
    cases hlw : lastWildPos rest with
    | some i =>
      rw [hlw] at ih
      simp only [Option.isSome_some] at ih
      simp [ih.symm]
    | none =>
      rw [hlw] at ih
      simp only [Option.isSome_none] at ih
      cases hws : wildSeg s <;> simp [hws, ih.symm]

theorem lastWildPos_last_iff (segs : List String) :
    lastWildPos segs = some (segs.length - 1) ↔ lastIsWild segs = true := by
  induction segs with
  | nil => simp [lastWildPos, lastIsWild]
  | cons s rest ih =>
    cases rest with
    | nil =>
      cases hws : wildSeg s <;>
        simp [lastWildPos, lastIsWild, hws, List.getLast?]
    | cons r rs =>
      simp only [lastIsWild] at ih ⊢
      rw [List.getLast?_cons_cons]
      have hone : lastWildPos (s :: r :: rs) =
          match lastWildPos (r :: rs) with
          | some j => some (j + 1)
          | none => if wildSeg s then some 0 else none := rfl
      cases hlw : lastWildPos (r :: rs) with
      | some i =>
        rw [hlw] at ih
        rw [hone, hlw]
        simp only [Option.some.injEq, List.length_cons] at ih ⊢
        rw [show (i + 1 = rs.length + 1 + 1 - 1) ↔ (i = rs.length + 1 - 1)
          from by omega]
        exact ih
      | none =>
        rw [hlw] at ih
        rw [hone, hlw]
        have hr : ¬((Option.map wildSeg (r :: rs).getLast?).getD false
            = true) := fun hc => Option.noConfusion (ih.mpr hc)
        refine ⟨fun hgoal => ?_, fun hc => absurd hc hr⟩
        have hgoal2 : (if wildSeg s = true then some 0 else none) =
            some ((s :: r :: rs).length - 1) := hgoal
        cases hws : wildSeg s
        · rw [hws] at hgoal2
          simp at hgoal2
        · rw [hws] at hgoal2
          simp at hgoal2

theorem allRoutes_ensure (st : RouterState) (m : String) :
    allRoutes (ensureMethodTable st m).1 = allRoutes st := by
  unfold ensureMethodTable
  cases halg : alGet st.methods m with
  | some t => rfl
  | none =>
    simp only [allRoutes]
    rw [alSet_of_missing st.methods m emptyTable halg]
    simp [emptyTable]

/-- Claim C6 (amended).  `addRoute` rejects exactly the patterns that
contain a wildcard segment but whose final segment is not itself a
wildcard segment; a pattern whose final segment is a wildcard is
accepted even when earlier segments are also wildcards (those are then
treated as literal prefix segments).  On rejection no route is inserted
into any bucket of any method table. -/
theorem addRoute_wildcard_rejection (st : RouterState) (d : RouteDefinition) :
    (addRoute st d).2.isSome =
      (hasWildSeg (routeSegsOf d) && !lastIsWild (routeSegsOf d)) ∧
    ((addRoute st d).2.isSome = true →
      allRoutes (addRoute st d).1 = allRoutes st) := by
  obtain ⟨hw, hwi⟩ := scan_fold (routeSegsOf d) 0 ⟨[], [], false, none, none⟩
  have hw2 : (scanSegments (routeSegsOf d)).wildcard =
      (lastWildPos (routeSegsOf d)).isSome := by
    simpa [scanSegments] using hw
  have hwi2 : (scanSegments (routeSegsOf d)).wildcardIndex =
      lastWildPos (routeSegsOf d) := by
    have h := hwi
    cases hlw : lastWildPos (routeSegsOf d) with
    | none =>
      rw [hlw] at h
      simpa [scanSegments] using h
    | some i =>
      rw [hlw] at h
      simp only [Nat.zero_add] at h
      simpa [scanSegments] using h
  by_cases hcond : ((scanSegments (routeSegsOf d)).wildcard = true ∧
      (scanSegments (routeSegsOf d)).wildcardIndex ≠
        some ((routeSegsOf d).length - 1))
  · have hcr : compileRoute d =
        Except.error ("Wildcard only allowed at end of path: " ++ d.path) := by
      simp only [compileRoute]
      rw [if_pos hcond]
    have hhw : hasWildSeg (routeSegsOf d) = true := by
      rw [← lastWildPos_isSome, ← hw2]
      exact hcond.1
    have hlast : lastIsWild (routeSegsOf d) = false := by
      rcases hbool : lastIsWild (routeSegsOf d) with _ | _
      · rfl
      · exact absurd (hwi2.trans ((lastWildPos_last_iff _).mpr hbool))
          hcond.2
    constructor
    · simp [addRoute, hcr, hhw, hlast]
    · intro _
      simp only [addRoute, hcr]
      exact allRoutes_ensure st (toUpperStr d.method)
  · cases hcr : compileRoute d with
    | error e =>
      exfalso
      simp only [compileRoute] at hcr
      rw [if_neg hcond] at hcr
      exact Except.noConfusion hcr
    | ok c =>
    have hnone : (addRoute st d).2 = none := by
      simp [addRoute, hcr]
    constructor
    · rw [hnone]
      push_neg at hcond
      cases hhw : hasWildSeg (routeSegsOf d) with
      | false => simp
      | true =>
        have hwild : (scanSegments (routeSegsOf d)).wildcard = true := by
          rw [hw2, lastWildPos_isSome, hhw]
        have hidx := hcond hwild
        rw [hwi2] at hidx
        have hlast : lastIsWild (routeSegsOf d) = true :=
          (lastWildPos_last_iff _).mp hidx
        simp [hlast]
    · intro hfalse
      rw [hnone] at hfalse
      simp at hfalse

/-- Witness for C6's amended claim: `GET /x/*w/y` has a wildcard segment
and its final segment is not a wildcard, so registration is rejected and
no route is inserted anywhere. -/
theorem addRoute_wildcard_rejection_witness :
    (addRoute emptyRouter rdefBadWild).2.isSome =
      (hasWildSeg (routeSegsOf rdefBadWild) &&
        !lastIsWild (routeSegsOf rdefBadWild)) ∧
    (addRoute emptyRouter rdefBadWild).2.isSome = true ∧
    allRoutes (addRoute emptyRouter rdefBadWild).1 = allRoutes emptyRouter :=
  ⟨(addRoute_wildcard_rejection emptyRouter rdefBadWild).1, by decide,
    (addRoute_wildcard_rejection emptyRouter rdefBadWild).2 (by decide)⟩

/-- Counterexample for C6 as stated: the pattern `/*a/*b` has the
wildcard segment `*a` in a non-final position, yet `addRoute` accepts it
and inserts it into the wildcard bucket — the registration check only
compares the index of the **last** wildcard segment with the final
position. -/
theorem wildcard_not_last_accepted :
    routeSegsOf rdefWW = ["*a", "*b"] ∧
    wildSeg "*a" = true ∧
    (addRoute emptyRouter rdefWW).2 = none ∧
    (match alGet (addRoute emptyRouter rdefWW).1.methods "GET" with
     | some t => t.wildcards.length
     | none => 0) = 1 := by
  refine ⟨by decide, by decide, by decide, by decide⟩

/-! ## C9: the scratch buffer never overflows and truncates to 16 -/

theorem splitPathAux_spec (cs : List Char) :
    ∀ (acc : List Char) (out : List String), out.length ≤ MAX_SEGMENTS →
      splitPathAux cs acc out =
        out ++ ((if acc.isEmpty then pathSegs cs
                 else (acc.reverse ++ cs.takeWhile (fun d => d != '/')) ::
                   pathSegs (cs.dropWhile (fun d => d != '/'))).map
            String.mk).take (MAX_SEGMENTS - out.length) := by
  induction cs with
  | nil =>
    intro acc out hle
    by_cases ha : acc.isEmpty
    · simp [splitPathAux, ha, pathSegs]
    · rw [show splitPathAux [] acc out = pushSeg out acc
        from by simp [splitPathAux, ha]]
      rw [if_neg ha]
      simp only [List.takeWhile_nil, List.dropWhile_nil, List.append_nil,
        pathSegs]
      unfold pushSeg
      by_cases hfull : out.length = MAX_SEGMENTS
      · rw [if_pos hfull, hfull]
        simp
      · rw [if_neg hfull]
        rw [List.take_of_length_le (by simp; omega)]
        simp
  | cons ch rest ih =>
    intro acc out hle
    by_cases hch : ch = '/'
    · subst hch
      by_cases ha : acc.isEmpty
      · rw [show splitPathAux ('/' :: rest) acc out = splitPathAux rest [] out
          from by simp [splitPathAux, ha]]
        rw [ih [] out hle, if_pos ha]
        rw [show pathSegs ('/' :: rest) = pathSegs rest
          from by simp [pathSegs]]
        simp
      · rw [show splitPathAux ('/' :: rest) acc out =
          splitPathAux rest [] (pushSeg out acc)
          from by simp [splitPathAux, ha]]
        rw [if_neg ha]
        rw [show ('/' :: rest).takeWhile (fun d => d != '/') = []
          from by simp [List.takeWhile_cons]]
        rw [show ('/' :: rest).dropWhile (fun d => d != '/') = '/' :: rest
          from by simp [List.dropWhile_cons]]
        rw [show pathSegs ('/' :: rest) = pathSegs rest
          from by simp [pathSegs]]
        unfold pushSeg
        by_cases hfull : out.length = MAX_SEGMENTS
        · rw [if_pos hfull, ih [] out hle, hfull]
          simp
        · have hle2 : (out ++ [String.mk acc.reverse]).length ≤
              MAX_SEGMENTS := by
            simp only [List.length_append, List.length_cons,
              List.length_nil]
            omega
          rw [if_neg hfull, ih [] (out ++ [String.mk acc.reverse]) hle2]
          have harith : MAX_SEGMENTS - out.length =
              (MAX_SEGMENTS - (out ++ [String.mk acc.reverse]).length) + 1 := by
            simp only [List.length_append, List.length_cons, List.length_nil]
            omega
          rw [harith]
          simp [List.take_succ_cons, List.append_assoc]
    · rw [show splitPathAux (ch :: rest) acc out =
        splitPathAux rest (ch :: acc) out from by simp [splitPathAux, hch]]
      rw [ih (ch :: acc) out hle]
      simp only [List.isEmpty_cons, Bool.false_eq_true, if_false]
      by_cases ha : acc.isEmpty
      · rw [if_pos ha]
        have ha2 : acc = [] := by
          cases acc
          · rfl
          · simp at ha
        subst ha2
        rw [show pathSegs (ch :: rest) =
            (ch :: rest.takeWhile (fun d => d != '/')) ::
              pathSegs (rest.dropWhile (fun d => d != '/'))
          from by simp [pathSegs, hch]]
        simp
      · rw [if_neg ha]
        rw [show (ch :: rest).takeWhile (fun d => d != '/') =
            ch :: rest.takeWhile (fun d => d != '/')
          from by simp [List.takeWhile_cons, hch]]
        rw [show (ch :: rest).dropWhile (fun d => d != '/') =
            rest.dropWhile (fun d => d != '/')
          from by simp [List.dropWhile_cons, hch]]
        simp [List.append_assoc]

/-- Claim C9.  `splitPath` writes at most `MAX_SEGMENTS` (16) entries
into the scratch buffer — entry `k` sits at buffer index `k`, so no
write ever lands past position 15 — and the result is exactly the first
16 of the path's segments: a longer path is truncated. -/
theorem splitPath_capped (path : String) :
    (splitPath path).length ≤ MAX_SEGMENTS ∧
    splitPath path = (pathSegsStr path).take MAX_SEGMENTS := by
  have heq : splitPath path = (pathSegsStr path).take MAX_SEGMENTS := by
    cases hd : path.data with
    | nil =>
      rw [show splitPath path = splitPathAux [] [] [] from by
        simp [splitPath, hd]]
      rw [show pathSegsStr path = [] from by
        simp [pathSegsStr, hd, pathSegs]]
      simp [splitPathAux]
    | cons c rest =>
      by_cases hc : c = '/'
      · subst hc
        rw [show splitPath path = splitPathAux rest [] [] from by
          simp [splitPath, hd]]
        rw [splitPathAux_spec rest [] [] (by simp [MAX_SEGMENTS])]
        rw [show pathSegsStr path = (pathSegs rest).map String.mk from by
          simp [pathSegsStr, hd, pathSegs]]
        simp
      · rw [show splitPath path = splitPathAux (c :: rest) [] [] from by
          simp [splitPath, hd, hc]]
        rw [splitPathAux_spec (c :: rest) [] [] (by simp [MAX_SEGMENTS])]
        rw [show pathSegsStr path = (pathSegs (c :: rest)).map String.mk
          from by simp [pathSegsStr, hd]]
        simp
  refine ⟨?_, heq⟩
  rw [heq, List.length_take]
  exact Nat.min_le_left _ _

/-! ## C8: the scoped dependency view -/

theorem alGet_assignPairs (s : List (String × Nat)) :
    ∀ (t : List (String × Nat)) (k : String),
      alGet (assignPairs t s) k =
        match lastGet s k with
        | some v => some v
        | none => alGet t k := by
  induction s with
  | nil => intro t k; rfl
  | cons p s ih =>
    obtain ⟨a, b⟩ := p
    intro t k
    rw [show assignPairs t ((a, b) :: s) = assignPairs (alSet t a b) s
      from rfl]
    rw [ih]
    cases hls : lastGet s k with
    | some w => simp [lastGet, hls]
    | none =>
      by_cases hak : a = k
      · subst hak
        simp [lastGet, hls, alGet_alSet_self]
      · simp [lastGet, hls, hak,
          alGet_alSet_ne t a k b (fun hh => hak hh.symm)]

theorem alGet_assignFold (ls : List (List (String × Nat))) :
    ∀ (t : List (String × Nat)) (k : String),
      alGet (ls.foldl assignPairs t) k =
        match ls.reverse.findSome? (fun ps => lastGet ps k) with
        | some v => some v
        | none => alGet t k := by
  induction ls with
  | nil => intro t k; rfl
  | cons ps ls ih =>
    intro t k
    rw [show (ps :: ls).foldl assignPairs t =
      ls.foldl assignPairs (assignPairs t ps) from rfl]
    rw [ih, List.reverse_cons, List.findSome?_append]
    cases hum : ls.reverse.findSome? (fun qs => lastGet qs k) with
    | some v => simp [hum, Option.or]
    | none =>
      rw [alGet_assignPairs]
      cases hlg : lastGet ps k with
      | some w => simp [hum, hlg, Option.or, List.findSome?_cons]
      | none => simp [hum, hlg, Option.or, List.findSome?_cons]

theorem getO_setO_self (h : Heap) (i : Nat) (o : HObj)
    (hi : i < h.objs.length) : (h.setO i o).getO i = o := by
  simp only [Heap.setO, Heap.getO]
  exact getD_set_self h.objs i o _ hi

theorem getO_setO_ne (h : Heap) (i j : Nat) (o : HObj) (hij : j ≠ i) :
    (h.setO i o).getO j = h.getO j := by
  simp only [Heap.setO, Heap.getO]
  exact getD_set_ne h.objs i j o _ hij

theorem heap_assignFold (vid : Nat) (R : PluginCtx → List (String × Nat)) :
    ∀ (scopes : List PluginCtx) (hh : Heap),
      vid < hh.objs.length →
      (∀ p ∈ scopes, p.decorId ≠ vid ∧ (hh.getO p.decorId).props = R p) →
      (scopes.foldl (fun acc p => acc.assignFrom vid p.decorId) hh).objs.length
          = hh.objs.length ∧
      (∀ i, i ≠ vid →
        (scopes.foldl (fun acc p => acc.assignFrom vid p.decorId) hh).getO i
          = hh.getO i) ∧
      ((scopes.foldl (fun acc p => acc.assignFrom vid p.decorId) hh).getO
          vid).proto = (hh.getO vid).proto ∧
      ((scopes.foldl (fun acc p => acc.assignFrom vid p.decorId) hh).getO
          vid).props =
        (scopes.map R).foldl assignPairs (hh.getO vid).props := by
  intro scopes
  induction scopes with
  | nil =>
    intro hh hvid hpre
    exact ⟨rfl, fun i hi => rfl, rfl, rfl⟩
  | cons p scopes ih =>
    intro hh hvid hpre
    have hdp := hpre p (List.mem_cons_self p scopes)
    have hlen2 : (hh.assignFrom vid p.decorId).objs.length =
        hh.objs.length := by
      simp [Heap.assignFrom, Heap.setO]
    have hvid2 : vid < (hh.assignFrom vid p.decorId).objs.length := by
      rw [hlen2]
      exact hvid
    have hframe2 : ∀ i, i ≠ vid →
        (hh.assignFrom vid p.decorId).getO i = hh.getO i := by
      intro i hi
      simp only [Heap.assignFrom]
      exact getO_setO_ne hh vid i _ hi
    have hvobj : (hh.assignFrom vid p.decorId).getO vid =
        { hh.getO vid with
            props := assignPairs (hh.getO vid).props (R p) } := by
      simp only [Heap.assignFrom]
      rw [← hdp.2]
      exact getO_setO_self hh vid _ hvid
    have hpre2 : ∀ q ∈ scopes, q.decorId ≠ vid ∧
        ((hh.assignFrom vid p.decorId).getO q.decorId).props = R q := by
      intro q hq
      have hdq := hpre q (List.mem_cons_of_mem p hq)
      exact ⟨hdq.1, by rw [hframe2 q.decorId hdq.1]; exact hdq.2⟩
    obtain ⟨hl, hf, hpr, hps⟩ := ih (hh.assignFrom vid p.decorId) hvid2 hpre2
    rw [show (p :: scopes).foldl (fun acc q => acc.assignFrom vid q.decorId)
        hh = scopes.foldl (fun acc q => acc.assignFrom vid q.decorId)
        (hh.assignFrom vid p.decorId) from rfl]
    refine ⟨hl.trans hlen2, ?_, ?_, ?_⟩
    · intro i hi
      rw [hf i hi, hframe2 i hi]
    · rw [hpr, hvobj]
    · rw [hps, hvobj]
      rfl

/-- Claim C8.  The per-route dependency view merges the decoration maps
root-to-leaf into a freshly allocated object whose prototype is the
application-root dependency map: a name resolves to the binding of the
deepest scope that sets it (a nested binding shadows an ancestor's),
falling back to the application map; and building the view leaves every
pre-existing heap object — every scope's decorations map and the root
map — unmodified. -/
theorem scoped_di_shadowing_and_frame (h : Heap) (app : AppState)
    (pc : Option PluginCtx) (name : String) (fuel : Nat)
    (hdi : app.diId < h.objs.length)
    (hdiproto : (h.getO app.diId).proto = none)
    (hgp : ∀ gp ∈ app.globalPlugins, gp.decorId < h.objs.length)
    (hchain : ∀ p ∈ walkUp pc, p.decorId < h.objs.length)
    (hfuel : 2 ≤ fuel) :
    (∀ i, i < h.objs.length →
      (buildScopedDI h app pc).1.getO i = h.getO i) ∧
    lookupIn (buildScopedDI h app pc).1 fuel (buildScopedDI h app pc).2 name
      = specDIResolve h app pc name := by
  have hbd : buildScopedDI h app pc =
      ((app.globalPlugins ++ buildPluginChain pc).foldl
          (fun acc p => acc.assignFrom h.objs.length p.decorId)
          ⟨h.objs ++ [⟨some app.diId, []⟩]⟩,
        h.objs.length) := by
    simp only [buildScopedDI, Heap.alloc]
    rw [List.foldl_append]
  have hget1 : ∀ j, j < h.objs.length →
      (⟨h.objs ++ [⟨some app.diId, []⟩]⟩ : Heap).getO j = h.getO j := by
    intro j hj
    simp only [Heap.getO]
    exact getD_append_lt _ _ _ _ hj
  have hget1v : (⟨h.objs ++ [⟨some app.diId, []⟩]⟩ : Heap).getO
      h.objs.length = ⟨some app.diId, []⟩ := by
    simp only [Heap.getO]
    exact getD_append_len _ _ _
  have hvid1 : h.objs.length <
      (⟨h.objs ++ [⟨some app.diId, []⟩]⟩ : Heap).objs.length := by
    simp
  have hmem : ∀ p ∈ app.globalPlugins ++ buildPluginChain pc,
      p.decorId < h.objs.length := by
    intro p hp
    rcases List.mem_append.mp hp with hp1 | hp2
    · exact hgp p hp1
    · exact hchain p (List.mem_reverse.mp hp2)
  have hpre : ∀ p ∈ app.globalPlugins ++ buildPluginChain pc,
      p.decorId ≠ h.objs.length ∧
      ((⟨h.objs ++ [⟨some app.diId, []⟩]⟩ : Heap).getO p.decorId).props =
        (fun q => (h.getO q.decorId).props) p := by
    intro p hp
    have hlt := hmem p hp
    exact ⟨by omega, by rw [hget1 p.decorId hlt]⟩
  obtain ⟨hlen, hframe, hproto, hprops⟩ :=
    heap_assignFold h.objs.length (fun q => (h.getO q.decorId).props)
      (app.globalPlugins ++ buildPluginChain pc)
      ⟨h.objs ++ [⟨some app.diId, []⟩]⟩ hvid1 hpre
  set res : Heap := (app.globalPlugins ++ buildPluginChain pc).foldl
      (fun acc p => acc.assignFrom h.objs.length p.decorId)
      ⟨h.objs ++ [⟨some app.diId, []⟩]⟩ with hresdef
  have hbd1 : (buildScopedDI h app pc).1 = res := by rw [hbd]
  have hbd2 : (buildScopedDI h app pc).2 = h.objs.length := by rw [hbd]
  constructor
  · intro i hi
    rw [hbd1, hframe i (by omega)]
    exact hget1 i hi
  · rw [hbd1, hbd2]
    obtain ⟨k, hk⟩ : ∃ k, fuel = k + 1 + 1 := ⟨fuel - 2, by omega⟩
    subst hk
    have hstep : ∀ (hp : Heap) (m : Nat) (oid : Nat),
        lookupIn hp (m + 1) oid name =
          (match alGet (hp.getO oid).props name with
           | some v => some v
           | none =>
             match (hp.getO oid).proto with
             | some pr => lookupIn hp m pr name
             | none => none) := fun hp m oid => rfl
    have hresv_props : (res.getO h.objs.length).props =
        ((app.globalPlugins ++ buildPluginChain pc).map
          (fun q => (h.getO q.decorId).props)).foldl assignPairs [] := by
      rw [hprops, hget1v]
    have hresv_proto : (res.getO h.objs.length).proto = some app.diId := by
      rw [hproto, hget1v]
    have hdig : res.getO app.diId = h.getO app.diId := by
      rw [hframe app.diId (by omega)]
      exact hget1 app.diId hdi
    have hvget : alGet (res.getO h.objs.length).props name =
        (match (app.globalPlugins ++ buildPluginChain pc).reverse.findSome?
            (fun p => lastGet (h.getO p.decorId).props name) with
         | some v => some v
         | none => none) := by
      rw [hresv_props, alGet_assignFold]
      rw [show ((app.globalPlugins ++ buildPluginChain pc).map
          (fun q => (h.getO q.decorId).props)).reverse =
          (app.globalPlugins ++ buildPluginChain pc).reverse.map
            (fun q => (h.getO q.decorId).props) from by simp]
      rw [List.findSome?_map]
      rfl
    have hspec : specDIResolve h app pc name =
        (match (app.globalPlugins ++ buildPluginChain pc).reverse.findSome?
            (fun p => lastGet (h.getO p.decorId).props name) with
         | some v => some v
         | none => alGet (h.getO app.diId).props name) := by
      simp only [specDIResolve]
      rw [show ((app.globalPlugins ++ buildPluginChain pc).map
          PluginCtx.decorId).reverse =
          (app.globalPlugins ++ buildPluginChain pc).reverse.map
            PluginCtx.decorId from by simp]
      rw [List.findSome?_map]
      rfl
    have hLHS : lookupIn res (k + 1 + 1) h.objs.length name =
        (match alGet (res.getO h.objs.length).props name with
         | some v => some v
         | none => lookupIn res (k + 1) app.diId name) := by
      cases halg2 : alGet (res.getO h.objs.length).props name with
      | some v => rw [hstep res (k + 1) h.objs.length, halg2]
      | none => rw [hstep res (k + 1) h.objs.length, halg2, hresv_proto]
    have hLHS2 : lookupIn res (k + 1) app.diId name =
        alGet (h.getO app.diId).props name := by
      cases halg : alGet (h.getO app.diId).props name with
      | some w => rw [hstep res k app.diId, hdig, halg]
      | none => rw [hstep res k app.diId, hdig, halg, hdiproto]
    rw [hLHS, hLHS2, hvget, hspec]
    cases hfs : (app.globalPlugins ++ buildPluginChain pc).reverse.findSome?
        (fun p => lastGet (h.getO p.decorId).props name) with
    | some v => rfl
    | none => rfl

/-- Witness for C8 on a concrete heap: the leaf scope's `shared = 30`
shadows the ancestor's `20` and the root map's `10`; the build leaves
objects 0, 1, 2 untouched. -/
theorem scoped_di_shadowing_and_frame_witness :
    (∀ i, i < heap8.objs.length →
      (buildScopedDI heap8 app8 (some pcLeaf8)).1.getO i = heap8.getO i) ∧
    lookupIn (buildScopedDI heap8 app8 (some pcLeaf8)).1 2
      (buildScopedDI heap8 app8 (some pcLeaf8)).2 "shared"
      = specDIResolve heap8 app8 (some pcLeaf8) "shared" :=
  scoped_di_shadowing_and_frame heap8 app8 (some pcLeaf8) "shared" 2
    (by decide) (by decide)
    (by intro gp hgpm; simp [app8] at hgpm)
    (by
      intro p hp
      simp only [walkUp, pcLeaf8, pcRoot8, chainUp, List.mem_cons,
        List.mem_singleton] at hp
      rcases hp with hp | hp | hp
      · subst hp; decide
      · subst hp; decide
      · exact absurd hp (by simp))
    (by decide)
